import Mathlib

/-!
Verification development for the `rusterizer` software rasterizer.

The embedding models the Rust sources (`src/color.rs`, `src/drawable.rs`,
`src/main.rs`) shallowly:

* `u32` values become `ℕ`, `i32` values become `ℤ` (the program only ever
  computes with coordinates far below the wrap-around range);
* `f64` values become `FP`: an exact rational (integer numerator, positive
  natural denominator, kept unnormalized so that every operation reduces in
  the kernel) extended with the IEEE special values `nan`, `pinf`, `ninf`.
  Finite arithmetic is exact (no rounding); the IEEE rules for the special
  values, for division by (positive) zero and for the saturating `as u8` /
  `as u32` casts are modelled faithfully, since several claims hinge on them;
* fallible operations (out-of-bounds indexing, `panic!`) return `Option`;
* the process-wide random source of `Color::random` is an injected stream
  `rng : ℕ → Color` together with a cursor that advances on every draw.
-/

/-- Exact fraction: numerator over a (by construction positive) natural
denominator.  Kept unnormalized so all arithmetic reduces to `Int`/`Nat`
operations in the kernel. -/
structure Frac where
  num : ℤ
  den : ℕ
deriving DecidableEq

/-- Fraction addition over the common (product) denominator. -/
def Frac.add (a b : Frac) : Frac := ⟨a.num * b.den + b.num * a.den, a.den * b.den⟩

/-- Fraction multiplication. -/
def Frac.mul (a b : Frac) : Frac := ⟨a.num * b.num, a.den * b.den⟩

/-- Fraction negation. -/
def Frac.neg (a : Frac) : Frac := ⟨-a.num, a.den⟩

/-- Fraction division by a fraction with nonzero numerator; the sign moves to
the numerator so the denominator stays a natural number. -/
def Frac.div (a b : Frac) : Frac :=
  if 0 < b.num then ⟨a.num * b.den, a.den * b.num.toNat⟩
  else ⟨-(a.num * b.den), a.den * (-b.num).toNat⟩

/-- Rational value of a fraction. -/
def Frac.toRat (f : Frac) : ℚ := (f.num : ℚ) / (f.den : ℚ)

/-- Model of an `f64` value: exact finite rational or an IEEE special value.
The single modelled zero behaves as IEEE `+0.0`, which is the zero the
program can actually produce (`x - x = +0.0` under round-to-nearest). -/
inductive FP where
  | nan : FP
  | pinf : FP
  | ninf : FP
  | fin : Frac → FP
deriving DecidableEq

/-- IEEE `<` on modelled `f64` values: any comparison with NaN is false. -/
def fpLt : FP → FP → Bool
  | .nan, _ => false
  | _, .nan => false
  | .pinf, _ => false
  | _, .ninf => false
  | .ninf, _ => true
  | .fin a, .fin b => decide (a.num * b.den < b.num * a.den)
  | .fin _, .pinf => true

/-- IEEE `<=` on modelled `f64` values: any comparison with NaN is false. -/
def fpLe : FP → FP → Bool
  | .nan, _ => false
  | _, .nan => false
  | .ninf, _ => true
  | _, .pinf => true
  | .pinf, _ => false
  | .fin a, .fin b => decide (a.num * b.den ≤ b.num * a.den)
  | .fin _, .ninf => false

/-- IEEE `>=`, written `a >= b` in the Rust source. -/
def fpGe (a b : FP) : Bool := fpLe b a

/-- IEEE addition on the modelled values (finite arithmetic is exact). -/
def fpAdd : FP → FP → FP
  | .nan, _ => .nan
  | _, .nan => .nan
  | .pinf, .ninf => .nan
  | .ninf, .pinf => .nan
  | .pinf, _ => .pinf
  | _, .pinf => .pinf
  | .ninf, _ => .ninf
  | _, .ninf => .ninf
  | .fin a, .fin b => .fin (a.add b)

/-- IEEE negation. -/
def fpNeg : FP → FP
  | .nan => .nan
  | .pinf => .ninf
  | .ninf => .pinf
  | .fin a => .fin a.neg

/-- IEEE subtraction, `a - b = a + (-b)` exactly. -/
def fpSub (a b : FP) : FP := fpAdd a (fpNeg b)

/-- IEEE multiplication; `inf * 0 = nan`, signs as usual. -/
def fpMul : FP → FP → FP
  | .nan, _ => .nan
  | _, .nan => .nan
  | .pinf, .pinf => .pinf
  | .pinf, .ninf => .ninf
  | .ninf, .pinf => .ninf
  | .ninf, .ninf => .pinf
  | .pinf, .fin b => if b.num = 0 then .nan else if 0 < b.num then .pinf else .ninf
  | .fin a, .pinf => if a.num = 0 then .nan else if 0 < a.num then .pinf else .ninf
  | .ninf, .fin b => if b.num = 0 then .nan else if 0 < b.num then .ninf else .pinf
  | .fin a, .ninf => if a.num = 0 then .nan else if 0 < a.num then .ninf else .pinf
  | .fin a, .fin b => .fin (a.mul b)

/-- IEEE division; `x / +0.0` gives a signed infinity, `0 / 0` and
`inf / inf` give NaN, `finite / inf` gives zero. -/
def fpDiv : FP → FP → FP
  | .nan, _ => .nan
  | _, .nan => .nan
  | .pinf, .pinf => .nan
  | .pinf, .ninf => .nan
  | .ninf, .pinf => .nan
  | .ninf, .ninf => .nan
  | .pinf, .fin b => if b.num < 0 then .ninf else .pinf
  | .ninf, .fin b => if b.num < 0 then .pinf else .ninf
  | .fin _, .pinf => .fin ⟨0, 1⟩
  | .fin _, .ninf => .fin ⟨0, 1⟩
  | .fin a, .fin b =>
    if b.num = 0 then
      if a.num = 0 then .nan else if 0 < a.num then .pinf else .ninf
    else .fin (a.div b)

/-- Rust `f64::max(x, 0.0)`: returns the non-NaN argument when one is NaN. -/
def fpMax0 : FP → FP
  | .nan => .fin ⟨0, 1⟩
  | .ninf => .fin ⟨0, 1⟩
  | .pinf => .pinf
  | .fin f => if f.num < 0 then .fin ⟨0, 1⟩ else .fin f

/-- Semantic equality of modelled `f64` values (mathematical, used only to
state theorems: `fin` values compare by cross multiplication). -/
def fpEquiv : FP → FP → Bool
  | .nan, .nan => true
  | .pinf, .pinf => true
  | .ninf, .ninf => true
  | .fin a, .fin b => decide (a.num * b.den = b.num * a.den)
  | _, _ => false

/-- Test for an exact (finite) zero, the value of the denominator of a
degenerate (collinear) triangle. -/
def FP.isZero : FP → Bool
  | .fin f => decide (f.num = 0)
  | _ => false

/-- Well-formed modelled value: a finite fraction carries a positive
denominator (every value the embedding of the program constructs does). -/
def FP.wf : FP → Bool
  | .fin f => decide (0 < f.den)
  | _ => true

/-- Rust saturating cast `f64 as u8`: truncate toward zero, clamp into
`[0, 255]`, NaN to 0. -/
def castU8 : FP → ℕ
  | .nan => 0
  | .ninf => 0
  | .pinf => 255
  | .fin f => if f.num < 0 then 0 else min (f.num.ediv f.den).toNat 255

/-- Rust saturating cast `f64 as u32`: truncate toward zero, clamp into
`[0, 4294967295]`, NaN to 0. -/
def castU32 : FP → ℕ
  | .nan => 0
  | .ninf => 0
  | .pinf => 4294967295
  | .fin f => if f.num < 0 then 0 else min (f.num.ediv f.den).toNat 4294967295

/-- Value of an `i32` expression re-read as `u32` (`y as u32` in the line
loop). -/
def wrapU32 (z : ℤ) : ℕ := (z % 4294967296).toNat

/-- `u32::abs_diff`. -/
def abs_diff (a b : ℕ) : ℕ := if a ≤ b then b - a else a - b

/-- `Color` from `src/color.rs`: three 8-bit channels (tuple struct
`Color(u8, u8, u8)`). -/
structure Color where
  r : ℕ
  g : ℕ
  b : ℕ
deriving DecidableEq

/-- `Color::scale` from `src/color.rs`: `x = x.max(0.0)`, multiply each
channel by `x` in `f64`, cast back with `as u8`. -/
def Color.scale (c : Color) (x : FP) : Color :=
  let x := fpMax0 x
  ⟨castU8 (fpMul (.fin ⟨c.r, 1⟩) x),
   castU8 (fpMul (.fin ⟨c.g, 1⟩) x),
   castU8 (fpMul (.fin ⟨c.b, 1⟩) x)⟩

/-- `Point3f = Point<f64>` from `src/drawable.rs`. -/
structure Point3f where
  x : FP
  y : FP
  z : FP
deriving DecidableEq

/-- `Point::min` (componentwise, via the file-local `min<T: PartialOrd>`,
`if a < b { a } else { b }`). -/
def Point3f.min (p q : Point3f) : Point3f :=
  ⟨if fpLt p.x q.x then p.x else q.x,
   if fpLt p.y q.y then p.y else q.y,
   if fpLt p.z q.z then p.z else q.z⟩

/-- `Point::max` (componentwise, via the file-local `max<T: PartialOrd>`,
`if a > b { a } else { b }`). -/
def Point3f.max (p q : Point3f) : Point3f :=
  ⟨if fpLt q.x p.x then p.x else q.x,
   if fpLt q.y p.y then p.y else q.y,
   if fpLt q.z p.z then p.z else q.z⟩

/-- `ScreenPoint::from(Point3f)`: each component cast with `as u32`. -/
def toScreen (p : Point3f) : ℕ × ℕ × ℕ := (castU32 p.x, castU32 p.y, castU32 p.z)

/-- Texture image handed to `DrawStyle::Textured`: a pixel grid with its
dimensions.  `get_pixel` panics (here: `none`) out of bounds, as in the
`image` crate. -/
structure Texture where
  width : ℕ
  height : ℕ
  pix : ℕ → ℕ → Color

/-- `RgbImage::get_pixel`: defined only inside the texture bounds. -/
def Texture.get_pixel (t : Texture) (x y : ℕ) : Option Color :=
  if x < t.width ∧ y < t.height then some (t.pix x y) else none

/-- `index (u * tex.width() as f64) as u32` computed by the `Textured` arm of
`determine_color` for one texture coordinate against one texture dimension. -/
def textureSampleIndex (coord : FP) (dim : ℕ) : ℕ :=
  castU32 (fpMul coord (.fin ⟨dim, 1⟩))

/-- `DrawStyle` from `src/main.rs`. -/
inductive DrawStyle where
  | Wireframe : Color → DrawStyle
  | Filled : Color → DrawStyle
  | FilledRandom : DrawStyle
  | Textured : Texture → Point3f × Point3f × Point3f → DrawStyle

/-- The `Image` drawable from `src/drawable.rs`: an `RgbImage` color grid
(row-major, index `y * width + x`) plus the flat `z_buffer` vector. -/
structure Image where
  width : ℕ
  height : ℕ
  pixels : List Color
  z_buffer : List FP
deriving DecidableEq

/-- `Image::new`: zeroed (black) color grid, `z_buffer` filled with
`f64::NEG_INFINITY`, both of length `width * height`. -/
def Image.new (width height : ℕ) : Image :=
  ⟨width, height, List.replicate (width * height) ⟨0, 0, 0⟩,
   List.replicate (width * height) .ninf⟩

/-- `RgbImage::put_pixel` (used by `Drawable::point` and `line`): panics out
of bounds, writes the row-major cell otherwise. -/
def Image.put_pixel (img : Image) (x y : ℕ) (c : Color) : Option Image :=
  if x < img.width ∧ y < img.height then
    some { img with pixels := img.pixels.set (y * img.width + x) c }
  else none

/-- `check_and_set_zbuf` from `src/drawable.rs`: index
`(y * self.height() + x)`, strict `<` test against the stored depth, update
and report `true` only on success; indexing outside the buffer panics. -/
def Image.check_and_set_zbuf (img : Image) (x y : ℕ) (z : FP) : Option (Image × Bool) :=
  match img.z_buffer.get? (y * img.height + x) with
  | none => none
  | some cur =>
    if fpLt cur z then
      some ({ img with z_buffer := img.z_buffer.set (y * img.height + x) z }, true)
    else some (img, false)

/-- Color of a pixel (row-major), for stating theorems. -/
def colorAt (img : Image) (x y : ℕ) : Color := img.pixels.getD (y * img.width + x) ⟨0, 0, 0⟩

/-- Stored depth of a pixel (at the flat index used by the code, `y * height + x`), for
stating theorems. -/
def zAt (img : Image) (x y : ℕ) : FP := img.z_buffer.getD (y * img.height + x) .nan

/-- Body of the `for x in x0..=x1` loop of `Image::line`, one recursion step
per iteration: emit the pixel (axes un-swapped for steep lines), then update
the doubled error term and the minor coordinate. -/
def lineLoop (steep : Bool) (derror2 dx dystep : ℤ) : ℕ → ℕ → ℤ → ℤ → List (ℕ × ℕ)
  | 0, _, _, _ => []
  | n + 1, x, error2, y =>
    (if steep then (wrapU32 y, x) else (x, wrapU32 y)) ::
      (if dx < error2 + derror2 then
        lineLoop steep derror2 dx dystep n (x + 1) (error2 + derror2 - dx * 2) (y + dystep)
      else
        lineLoop steep derror2 dx dystep n (x + 1) (error2 + derror2) y)

/-- `Image::line` after its two swaps, with `x0 <= x1` already arranged:
`dx = x1 - x0`, `dy = y1 - y0`, `derror2 = dy.abs() * 2`, then the loop. -/
def lineRun (steep : Bool) (x0 y0 x1 y1 : ℕ) : List (ℕ × ℕ) :=
  lineLoop steep (((y1 : ℤ) - y0).natAbs * 2) ((x1 : ℤ) - x0) ((y1 : ℤ) - y0).sign
    (x1 - x0 + 1) x0 0 y0

/-- Pixel trace of `Image::line` from `src/drawable.rs`: the steep test on
`abs_diff`, the role swap for steep lines, the endpoint swap that orients the
major axis low-to-high, then the Bresenham loop. -/
def linePixels (x0 y0 x1 y1 : ℕ) : List (ℕ × ℕ) :=
  if abs_diff x0 x1 < abs_diff y0 y1 then
    if y1 < y0 then lineRun true y1 x1 y0 x0 else lineRun true y0 x0 y1 x1
  else
    if x1 < x0 then lineRun false x1 y1 x0 y0 else lineRun false x0 y0 x1 y1

/-- `Image::line` as an effect on the canvas: one `put_pixel` per traced
pixel (out-of-bounds writes panic, hence `Option`). -/
def Image.line (img : Image) (x0 y0 x1 y1 : ℕ) (c : Color) : Option Image :=
  (linePixels x0 y0 x1 y1).foldlM (fun im p => im.put_pixel p.1 p.2 c) img

/-- Denominator of the signed-area barycentric formula from `barycentric` in
`src/drawable.rs`. -/
def bdenom (p1 p2 p3 : Point3f) : FP :=
  fpSub (fpMul (fpSub p1.x p3.x) (fpSub p2.y p3.y))
        (fpMul (fpSub p1.y p3.y) (fpSub p2.x p3.x))

/-- `barycentric` from `src/drawable.rs`, computed exactly as written there:
`lambda1 = ((px-x3)(y2-y3) + (x3-x2)(py-y3)) / denom`,
`lambda2 = ((x3-px)(y1-y3) + (x3-x1)(y3-py)) / denom`,
third weight `1 - lambda1 - lambda2`. -/
def barycentric (p1 p2 p3 p : Point3f) : FP × FP × FP :=
  let denom := bdenom p1 p2 p3
  let lambda1 := fpDiv (fpAdd (fpMul (fpSub p.x p3.x) (fpSub p2.y p3.y))
                              (fpMul (fpSub p3.x p2.x) (fpSub p.y p3.y))) denom
  let lambda2 := fpDiv (fpAdd (fpMul (fpSub p3.x p.x) (fpSub p1.y p3.y))
                              (fpMul (fpSub p3.x p1.x) (fpSub p3.y p.y))) denom
  (lambda1, lambda2, fpSub (fpSub (.fin ⟨1, 1⟩) lambda1) lambda2)

/-- Modelled from the spec (§4.5): the literal weight formulas of the spec, whose
`b` ends in `(x3-x1)(py-y3)` where the code has `(x3-x1)(y3-py)`. -/
def barycentricSpec (p1 p2 p3 p : Point3f) : FP × FP × FP :=
  let denom := fpSub (fpMul (fpSub p1.x p3.x) (fpSub p2.y p3.y))
                     (fpMul (fpSub p1.y p3.y) (fpSub p2.x p3.x))
  let a := fpDiv (fpAdd (fpMul (fpSub p.x p3.x) (fpSub p2.y p3.y))
                        (fpMul (fpSub p3.x p2.x) (fpSub p.y p3.y))) denom
  let b := fpDiv (fpAdd (fpMul (fpSub p3.x p.x) (fpSub p1.y p3.y))
                        (fpMul (fpSub p3.x p1.x) (fpSub p.y p3.y))) denom
  (a, b, fpSub (fpSub (.fin ⟨1, 1⟩) a) b)

/-- The weight formulas of the spec with the single sign slip in `b` repaired
(second product `(x3-x1)(y3-py)`), stated independently of `barycentric`. -/
def barycentricAmended (p1 p2 p3 p : Point3f) : FP × FP × FP :=
  let denom := fpSub (fpMul (fpSub p1.x p3.x) (fpSub p2.y p3.y))
                     (fpMul (fpSub p1.y p3.y) (fpSub p2.x p3.x))
  let a := fpDiv (fpAdd (fpMul (fpSub p.x p3.x) (fpSub p2.y p3.y))
                        (fpMul (fpSub p3.x p2.x) (fpSub p.y p3.y))) denom
  let b := fpDiv (fpAdd (fpMul (fpSub p3.x p.x) (fpSub p1.y p3.y))
                        (fpMul (fpSub p3.x p1.x) (fpSub p3.y p.y))) denom
  (a, b, fpSub (fpSub (.fin ⟨1, 1⟩) a) b)

/-- `LIMIT = 1e-9` negated, the bound of the inside test.  Modelled as the
exact rational `-10^-9`; no claim depends on the last bits of the `f64`
literal. -/
def negLIMIT : FP := .fin ⟨-1, 1000000000⟩

/-- The inside test of `triangle_barycentric`:
`a >= -LIMIT && b >= -LIMIT && c >= -LIMIT`. -/
def insideTest (t : FP × FP × FP) : Bool :=
  fpGe t.1 negLIMIT && fpGe t.2.1 negLIMIT && fpGe t.2.2 negLIMIT

/-- `determine_color` from `src/drawable.rs`.  The `Wireframe` arm panics
(`none`); `FilledRandom` draws the next color from the injected random stream
and advances the cursor; `Textured` interpolates UV with the barycentric
weights and samples the texture (out-of-bounds sampling panics). -/
def determine_color (rng : ℕ → Color) (rix : ℕ) (bary : FP × FP × FP)
    (style : DrawStyle) (intensity : FP) : Option (Color × ℕ) :=
  match style with
  | .Textured tex tps =>
    let u := fpAdd (fpAdd (fpMul bary.1 tps.1.x) (fpMul bary.2.1 tps.2.1.x))
                   (fpMul bary.2.2 tps.2.2.x)
    let v := fpAdd (fpAdd (fpMul bary.1 tps.1.y) (fpMul bary.2.1 tps.2.1.y))
                   (fpMul bary.2.2 tps.2.2.y)
    (tex.get_pixel (textureSampleIndex u tex.width) (textureSampleIndex v tex.height)).map
      (fun col => (col.scale intensity, rix))
  | .Filled color => some (color.scale intensity, rix)
  | .FilledRandom => some ((rng rix).scale intensity, rix + 1)
  | .Wireframe _ => none

/-- Body of the per-pixel loop of `triangle_barycentric`: barycentric
weights of the pixel, inside test, depth test, then resolve and write the
color only when the depth test succeeded. -/
def pixelStep (rng : ℕ → Color) (p1 p2 p3 : Point3f) (style : DrawStyle)
    (intensity : FP) (y x : ℕ) (s : Image × ℕ) : Option (Image × ℕ) :=
  let pb := barycentric p1 p2 p3 ⟨.fin ⟨x, 1⟩, .fin ⟨y, 1⟩, .fin ⟨0, 1⟩⟩
  if insideTest pb then
    let z := fpAdd (fpAdd (fpMul pb.1 p1.z) (fpMul pb.2.1 p2.z)) (fpMul pb.2.2 p3.z)
    (s.1.check_and_set_zbuf x y z).bind fun r =>
      if r.2 then
        (determine_color rng s.2 pb style intensity).bind fun cr =>
          (r.1.put_pixel x y cr.1).map fun im => (im, cr.2)
      else some (r.1, s.2)
  else some s

/-- Inclusive range `a..=b` as the list of its elements. -/
def rangeIncl (a b : ℕ) : List ℕ := (List.range (b + 1 - a)).map (a + ·)

/-- `triangle_barycentric` from `src/drawable.rs`: bounding box of the three
projected vertices, clamped by `min(width - 1)` / `min(height - 1)` after the
`as u32` conversion, then the row-major pixel loop. -/
def triangle_barycentric (rng : ℕ → Color) (img : Image) (p1 p2 p3 : Point3f)
    (style : DrawStyle) (intensity : FP) (rix : ℕ) : Option (Image × ℕ) :=
  let minp := (p1.min p2).min p3
  let maxp := (p1.max p2).max p3
  let minx := Nat.min (castU32 minp.x) (img.width - 1)
  let miny := Nat.min (castU32 minp.y) (img.height - 1)
  let maxx := Nat.min (castU32 maxp.x) (img.width - 1)
  let maxy := Nat.min (castU32 maxp.y) (img.height - 1)
  (rangeIncl miny maxy).foldlM
    (fun s y => (rangeIncl minx maxx).foldlM
      (fun s x => pixelStep rng p1 p2 p3 style intensity y x s) s)
    (img, rix)

/-- `triangle_wireframe` from `src/drawable.rs`: the three edges drawn with
`Image::line` on the `as u32` screen points. -/
def triangle_wireframe (img : Image) (u v w : ℕ × ℕ × ℕ) (c : Color) : Option Image :=
  (img.line u.1 u.2.1 v.1 v.2.1 c).bind fun i1 =>
    (i1.line v.1 v.2.1 w.1 w.2.1 c).bind fun i2 =>
      i2.line u.1 u.2.1 w.1 w.2.1 c

/-- `Drawable::triangle` for `Image`: `Wireframe` goes to the edge drawer,
everything else to `triangle_barycentric`. -/
def Image.triangle (rng : ℕ → Color) (img : Image) (a b c : Point3f)
    (style : DrawStyle) (intensity : FP) (rix : ℕ) : Option (Image × ℕ) :=
  match style with
  | .Wireframe col =>
    (triangle_wireframe img (toScreen a) (toScreen b) (toScreen c) col).map (fun im => (im, rix))
  | _ => triangle_barycentric rng img a b c style intensity rix

/-- The per-triangle step of `draw_obj` in `src/main.rs` from the point where
the light intensity of the triangle has been computed: `if intensity < 0.0 {
continue; }`, otherwise dispatch to `Drawable::triangle` with the projected
vertices. -/
def drawTriangleStep (rng : ℕ → Color) (img : Image) (intensity : FP)
    (p1 p2 p3 : Point3f) (style : DrawStyle) (rix : ℕ) : Option (Image × ℕ) :=
  if fpLt intensity (.fin ⟨0, 1⟩) then some (img, rix)
  else Image.triangle rng img p1 p2 p3 style intensity rix

/-- Run a sequence of `check_and_set_zbuf` calls `(x, y, z)`. -/
def runCalls (img : Image) : List (ℕ × ℕ × FP) → Option Image
  | [] => some img
  | c :: rest =>
    match img.check_and_set_zbuf c.1 c.2.1 c.2.2 with
    | none => none
    | some r => runCalls r.1 rest

/-- Depth values accepted (call returned `true`) at pixel `(x, y)` along a
sequence of `check_and_set_zbuf` calls. -/
def acceptedAt (img : Image) (x y : ℕ) : List (ℕ × ℕ × FP) → List FP
  | [] => []
  | c :: rest =>
    match img.check_and_set_zbuf c.1 c.2.1 c.2.2 with
    | none => []
    | some r =>
      (if r.2 = true ∧ c.1 = x ∧ c.2.1 = y then [c.2.2] else []) ++ acceptedAt r.1 x y rest

/-- Running maximum in the order `check_and_set_zbuf` accepts values. -/
def fpMaxAcc (m z : FP) : FP := if fpLt m z then z else m

/-- Modelled from the words of the claim for C5: each channel
`floor(c * max(f, 0))` narrowed by a truncating (wrapping, mod 256) 8-bit
conversion rather than the saturating cast the code performs. -/
def specScaleWrap (c : Color) (f : FP) : Color :=
  let x := fpMax0 f
  let chan : FP → ℕ := fun v =>
    match v with
    | .fin q => ((q.num.ediv q.den) % 256).toNat
    | _ => 0
  ⟨chan (fpMul (.fin ⟨c.r, 1⟩) x), chan (fpMul (.fin ⟨c.g, 1⟩) x),
   chan (fpMul (.fin ⟨c.b, 1⟩) x)⟩

/-- Major-axis coordinates of a traced line, for stating theorems: the `y`
pixel coordinates for steep lines (`|dy| > |dx|`, where the roles were
swapped), the `x` pixel coordinates otherwise. -/
def majorCoords (x0 y0 x1 y1 : ℕ) : List ℕ :=
  if abs_diff x0 x1 < abs_diff y0 y1 then (linePixels x0 y0 x1 y1).map (fun p => p.2)
  else (linePixels x0 y0 x1 y1).map (fun p => p.1)

/-! Helper lemmas. -/

theorem fpLt_irrefl (a : FP) : fpLt a a = false := by
  cases a <;> simp [fpLt]

theorem fpLt_asymm {a b : FP} (h : fpLt a b = true) : fpLt b a = false := by
  cases a <;> cases b <;> simp_all [fpLt]
  omega

theorem getElem?_eq_some_getD {α : Type} (l : List α) (d : α) (i : ℕ) (h : i < l.length) :
    l[i]? = some (l.getD i d) := by
  rw [List.getD_eq_getElem?_getD, List.getElem?_eq_getElem h]
  rfl

theorem get?_eq_some_getD {α : Type} (l : List α) (d : α) (i : ℕ) (h : i < l.length) :
    l.get? i = some (l.getD i d) := by
  rw [List.get?_eq_getElem?]
  exact getElem?_eq_some_getD l d i h

theorem getD_set_self {α : Type} (l : List α) (i : ℕ) (a d : α) (h : i < l.length) :
    (l.set i a).getD i d = a := by
  rw [List.getD_eq_getElem?_getD, List.getElem?_set_self h]
  rfl

theorem getD_set_ne {α : Type} (l : List α) (i j : ℕ) (a d : α) (h : i ≠ j) :
    (l.set i a).getD j d = l.getD j d := by
  rw [List.getD_eq_getElem?_getD, List.getD_eq_getElem?_getD, List.getElem?_set_ne h]

theorem getD_replicate {α : Type} (n i : ℕ) (a d : α) (h : i < n) :
    (List.replicate n a).getD i d = a := by
  rw [List.getD_eq_getElem?_getD, List.getElem?_replicate]
  simp [h]

/-- C1: for an in-bounds pixel of a well-formed (square) canvas,
`check_and_set_zbuf(x, y, z)` returns `true` and replaces the stored depth by
`z` exactly when `z` is strictly greater than the stored depth; otherwise it
returns `false` and leaves the depth grid and the color grid untouched.  After
an accepting call, repeating the same `z` is rejected, and any strictly
smaller `z2` is rejected, with the canvas (color grid included) unchanged. -/
theorem check_and_set_zbuf_correct (img : Image) (x y : ℕ) (z : FP)
    (hin : y * img.height + x < img.z_buffer.length) :
    (img.check_and_set_zbuf x y z =
        some ({ img with z_buffer := img.z_buffer.set (y * img.height + x) z }, true)
      ↔ fpLt (zAt img x y) z = true) ∧
    (fpLt (zAt img x y) z = false → img.check_and_set_zbuf x y z = some (img, false)) ∧
    (∀ img2, img.check_and_set_zbuf x y z = some (img2, true) →
      img2.pixels = img.pixels ∧
      img2.check_and_set_zbuf x y z = some (img2, false) ∧
      ∀ z2, fpLt z2 z = true → img2.check_and_set_zbuf x y z2 = some (img2, false)) := by
  have hget : img.z_buffer[y * img.height + x]? = some (zAt img x y) :=
    getElem?_eq_some_getD _ _ _ hin
  refine ⟨?_, ?_, ?_⟩
  · cases hlt : fpLt (zAt img x y) z <;>
      simp [Image.check_and_set_zbuf, hget, hlt]
  · intro hlt
    simp [Image.check_and_set_zbuf, hget, hlt]
  · intro img2 heq
    cases hlt : fpLt (zAt img x y) z
    · simp [Image.check_and_set_zbuf, hget, hlt] at heq
    · simp [Image.check_and_set_zbuf, hget, hlt] at heq
      have hz2 : img2.z_buffer = img.z_buffer.set (y * img.height + x) z := by
        rw [← heq]
      have hh2 : img2.height = img.height := by rw [← heq]
      have hlen2 : y * img2.height + x < img2.z_buffer.length := by
        rw [hz2, hh2, List.length_set]
        exact hin
      have hstored : zAt img2 x y = z := by
        rw [zAt, hz2, hh2]
        exact getD_set_self _ _ _ _ hin
      have hget2 : img2.z_buffer[y * img2.height + x]? = some z := by
        rw [getElem?_eq_some_getD _ FP.nan _ hlen2]
        rw [← zAt, hstored]
      refine ⟨by rw [← heq], ?_, ?_⟩
      · simp [Image.check_and_set_zbuf, hget2, fpLt_irrefl]
      · intro z2 hz2lt
        simp [Image.check_and_set_zbuf, hget2, fpLt_asymm hz2lt]

/-- Witness for C1 on a concrete 1-by-1 canvas with depth `1` against the
freshly initialized buffer. -/
theorem check_and_set_zbuf_correct_instance :
    (0 * (Image.new 1 1).height + 0 < (Image.new 1 1).z_buffer.length) ∧
    (((Image.new 1 1).check_and_set_zbuf 0 0 (.fin ⟨1, 1⟩) =
        some ({ Image.new 1 1 with
                  z_buffer := (Image.new 1 1).z_buffer.set
                    (0 * (Image.new 1 1).height + 0) (.fin ⟨1, 1⟩) }, true)
      ↔ fpLt (zAt (Image.new 1 1) 0 0) (.fin ⟨1, 1⟩) = true) ∧
    (fpLt (zAt (Image.new 1 1) 0 0) (.fin ⟨1, 1⟩) = false →
      (Image.new 1 1).check_and_set_zbuf 0 0 (.fin ⟨1, 1⟩) = some (Image.new 1 1, false)) ∧
    (∀ img2, (Image.new 1 1).check_and_set_zbuf 0 0 (.fin ⟨1, 1⟩) = some (img2, true) →
      img2.pixels = (Image.new 1 1).pixels ∧
      img2.check_and_set_zbuf 0 0 (.fin ⟨1, 1⟩) = some (img2, false) ∧
      ∀ z2, fpLt z2 (.fin ⟨1, 1⟩) = true →
        img2.check_and_set_zbuf 0 0 z2 = some (img2, false))) :=
  ⟨by decide, check_and_set_zbuf_correct (Image.new 1 1) 0 0 (.fin ⟨1, 1⟩) (by decide)⟩

/-- C2 (amended): `barycentric` computes, for every triangle and query point,
exactly the signed-area formulas of the spec once the sign slip in the second
product of `b` is repaired (`(x3-x1)(y3-py)`, not `(x3-x1)(py-y3)`). -/
theorem barycentric_matches_amended_formulas (p1 p2 p3 p : Point3f) :
    barycentric p1 p2 p3 p = barycentricAmended p1 p2 p3 p := rfl

/-- C2 counterexample: at triangle `(5,5), (10,5), (10,7)` queried at its own
second vertex, the `b` weight of the code is `1` while the literal `b` of the spec
formula yields `-1`; the code does not implement the formulas of the spec as
written. -/
theorem barycentric_spec_formula_cex :
    fpEquiv (barycentric ⟨.fin ⟨5, 1⟩, .fin ⟨5, 1⟩, .fin ⟨0, 1⟩⟩
        ⟨.fin ⟨10, 1⟩, .fin ⟨5, 1⟩, .fin ⟨0, 1⟩⟩ ⟨.fin ⟨10, 1⟩, .fin ⟨7, 1⟩, .fin ⟨0, 1⟩⟩
        ⟨.fin ⟨10, 1⟩, .fin ⟨5, 1⟩, .fin ⟨0, 1⟩⟩).2.1 (.fin ⟨1, 1⟩) = true ∧
    fpEquiv (barycentricSpec ⟨.fin ⟨5, 1⟩, .fin ⟨5, 1⟩, .fin ⟨0, 1⟩⟩
        ⟨.fin ⟨10, 1⟩, .fin ⟨5, 1⟩, .fin ⟨0, 1⟩⟩ ⟨.fin ⟨10, 1⟩, .fin ⟨7, 1⟩, .fin ⟨0, 1⟩⟩
        ⟨.fin ⟨10, 1⟩, .fin ⟨5, 1⟩, .fin ⟨0, 1⟩⟩).2.1 (.fin ⟨-1, 1⟩) = true ∧
    fpEquiv (barycentric ⟨.fin ⟨5, 1⟩, .fin ⟨5, 1⟩, .fin ⟨0, 1⟩⟩
        ⟨.fin ⟨10, 1⟩, .fin ⟨5, 1⟩, .fin ⟨0, 1⟩⟩ ⟨.fin ⟨10, 1⟩, .fin ⟨7, 1⟩, .fin ⟨0, 1⟩⟩
        ⟨.fin ⟨10, 1⟩, .fin ⟨5, 1⟩, .fin ⟨0, 1⟩⟩).2.1
      (barycentricSpec ⟨.fin ⟨5, 1⟩, .fin ⟨5, 1⟩, .fin ⟨0, 1⟩⟩
        ⟨.fin ⟨10, 1⟩, .fin ⟨5, 1⟩, .fin ⟨0, 1⟩⟩ ⟨.fin ⟨10, 1⟩, .fin ⟨7, 1⟩, .fin ⟨0, 1⟩⟩
        ⟨.fin ⟨10, 1⟩, .fin ⟨5, 1⟩, .fin ⟨0, 1⟩⟩).2.1 = false := by
  decide

/-- C9: in `draw_obj`, a triangle whose computed light intensity is strictly
negative is skipped entirely (the canvas and the random cursor are returned
unchanged, so no color pixel and no depth entry is touched), while intensity
exactly `0` is not skipped: the step dispatches to `Drawable::triangle`. -/
theorem draw_obj_skips_backfacing (rng : ℕ → Color) (img : Image) (intensity : FP)
    (p1 p2 p3 : Point3f) (style : DrawStyle) (rix : ℕ)
    (hneg : fpLt intensity (.fin ⟨0, 1⟩) = true) :
    drawTriangleStep rng img intensity p1 p2 p3 style rix = some (img, rix) ∧
    drawTriangleStep rng img (.fin ⟨0, 1⟩) p1 p2 p3 style rix
      = Image.triangle rng img p1 p2 p3 style (.fin ⟨0, 1⟩) rix := by
  constructor
  · simp [drawTriangleStep, hneg]
  · simp [drawTriangleStep, fpLt]

/-- Witness for C9 at intensity `-1` on a concrete canvas and triangle. -/
theorem draw_obj_skips_backfacing_instance :
    fpLt (.fin ⟨-1, 1⟩) (.fin ⟨0, 1⟩) = true ∧
    (drawTriangleStep (fun _ => ⟨0, 0, 0⟩) (Image.new 2 2) (.fin ⟨-1, 1⟩)
        ⟨.fin ⟨0, 1⟩, .fin ⟨0, 1⟩, .fin ⟨0, 1⟩⟩ ⟨.fin ⟨1, 1⟩, .fin ⟨0, 1⟩, .fin ⟨0, 1⟩⟩
        ⟨.fin ⟨0, 1⟩, .fin ⟨1, 1⟩, .fin ⟨0, 1⟩⟩ (.Filled ⟨255, 255, 255⟩) 0
      = some (Image.new 2 2, 0) ∧
    drawTriangleStep (fun _ => ⟨0, 0, 0⟩) (Image.new 2 2) (.fin ⟨0, 1⟩)
        ⟨.fin ⟨0, 1⟩, .fin ⟨0, 1⟩, .fin ⟨0, 1⟩⟩ ⟨.fin ⟨1, 1⟩, .fin ⟨0, 1⟩, .fin ⟨0, 1⟩⟩
        ⟨.fin ⟨0, 1⟩, .fin ⟨1, 1⟩, .fin ⟨0, 1⟩⟩ (.Filled ⟨255, 255, 255⟩) 0
      = Image.triangle (fun _ => ⟨0, 0, 0⟩) (Image.new 2 2)
          ⟨.fin ⟨0, 1⟩, .fin ⟨0, 1⟩, .fin ⟨0, 1⟩⟩ ⟨.fin ⟨1, 1⟩, .fin ⟨0, 1⟩, .fin ⟨0, 1⟩⟩
          ⟨.fin ⟨0, 1⟩, .fin ⟨1, 1⟩, .fin ⟨0, 1⟩⟩ (.Filled ⟨255, 255, 255⟩) (.fin ⟨0, 1⟩) 0) :=
  ⟨by decide, draw_obj_skips_backfacing (fun _ => ⟨0, 0, 0⟩) (Image.new 2 2) (.fin ⟨-1, 1⟩)
    ⟨.fin ⟨0, 1⟩, .fin ⟨0, 1⟩, .fin ⟨0, 1⟩⟩ ⟨.fin ⟨1, 1⟩, .fin ⟨0, 1⟩, .fin ⟨0, 1⟩⟩
    ⟨.fin ⟨0, 1⟩, .fin ⟨1, 1⟩, .fin ⟨0, 1⟩⟩ (.Filled ⟨255, 255, 255⟩) 0 (by decide)⟩

theorem scale_channel_eq (c : ℕ) (f : Frac) (hden : 0 < f.den) :
    castU8 (fpMul (.fin ⟨c, 1⟩) (fpMax0 (.fin f))) =
      min (⌊(c : ℚ) * max f.toRat 0⌋).toNat 255 := by
  by_cases hneg : f.num < 0
  · have htr : f.toRat < 0 := by
      rw [Frac.toRat]
      apply div_neg_of_neg_of_pos
      · exact_mod_cast hneg
      · exact_mod_cast hden
    rw [max_eq_right htr.le]
    simp [fpMax0, fpMul, Frac.mul, castU8, hneg, Int.zero_ediv]
    decide
  · push_neg at hneg
    have htr : 0 ≤ f.toRat := by
      rw [Frac.toRat]
      apply div_nonneg
      · exact_mod_cast hneg
      · positivity
    rw [max_eq_left htr]
    have hnum : ¬ ((c : ℤ) * f.num < 0) :=
      not_lt.mpr (mul_nonneg (Int.natCast_nonneg c) hneg)
    simp only [fpMax0, if_neg (not_lt.mpr hneg), fpMul, Frac.mul, castU8, hnum, if_false]
    congr 2
    have : (c : ℚ) * f.toRat = (((c : ℤ) * f.num : ℤ) : ℚ) / ((f.den : ℕ) : ℚ) := by
      rw [Frac.toRat]
      push_cast
      ring
    rw [this, Rat.floor_intCast_div_natCast, one_mul]
    rfl

/-- C5 counterexample: scaling `(200,200,200)` by factor `2` yields
`(255,255,255)` under the saturating `as u8` cast, while the claimed
wrapping 8-bit narrowing would yield `400 mod 256 = 144`; the claimed
truncating-narrowing (non-saturating) reading of `scale` is false. -/
theorem color_scale_wrap_cex :
    Color.scale ⟨200, 200, 200⟩ (.fin ⟨2, 1⟩) = ⟨255, 255, 255⟩ ∧
    specScaleWrap ⟨200, 200, 200⟩ (.fin ⟨2, 1⟩) = ⟨144, 144, 144⟩ ∧
    Color.scale ⟨200, 200, 200⟩ (.fin ⟨2, 1⟩) ≠ specScaleWrap ⟨200, 200, 200⟩ (.fin ⟨2, 1⟩) := by
  decide

/-- C5 (amended): for every color and every finite factor, each channel
becomes `floor(c * max(factor, 0))` clamped (saturating, not wrapping) into
`[0, 255]`; in particular `(255,255,255)` scaled by `0.5` is
`(127,127,127)`. -/
theorem color_scale_saturates (r g b : ℕ) (f : Frac) (hden : 0 < f.den) :
    Color.scale ⟨r, g, b⟩ (.fin f) =
      ⟨min (⌊(r : ℚ) * max f.toRat 0⌋).toNat 255,
       min (⌊(g : ℚ) * max f.toRat 0⌋).toNat 255,
       min (⌊(b : ℚ) * max f.toRat 0⌋).toNat 255⟩ ∧
    Color.scale ⟨255, 255, 255⟩ (.fin ⟨1, 2⟩) = ⟨127, 127, 127⟩ := by
  constructor
  · rw [Color.scale]
    simp only
    rw [scale_channel_eq r f hden, scale_channel_eq g f hden, scale_channel_eq b f hden]
  · decide

/-- Witness for the amended statement of C5 at color `(200,100,3)` and factor
`3/2`. -/
theorem color_scale_saturates_instance :
    0 < (⟨3, 2⟩ : Frac).den ∧
    (Color.scale ⟨200, 100, 3⟩ (.fin ⟨3, 2⟩) =
      ⟨min (⌊(200 : ℚ) * max (Frac.toRat ⟨3, 2⟩) 0⌋).toNat 255,
       min (⌊(100 : ℚ) * max (Frac.toRat ⟨3, 2⟩) 0⌋).toNat 255,
       min (⌊(3 : ℚ) * max (Frac.toRat ⟨3, 2⟩) 0⌋).toNat 255⟩ ∧
    Color.scale ⟨255, 255, 255⟩ (.fin ⟨1, 2⟩) = ⟨127, 127, 127⟩) :=
  ⟨by decide, color_scale_saturates 200 100 3 ⟨3, 2⟩ (by decide)⟩

/-- C8 counterexample: one `FilledRandom` triangle fill with the injected
random stream `k ↦ (k, 0, 0)` and intensity `1` writes color `(1,0,0)` at
pixel `(1,0)` but `(2,0,0)` at pixel `(0,1)` — the random color is re-rolled
for every written pixel, so the pixels of a single triangle do not share one
color. -/
theorem filled_random_rerolls_cex :
    (triangle_barycentric (fun k => ⟨k, 0, 0⟩) (Image.new 2 2)
        ⟨.fin ⟨0, 1⟩, .fin ⟨0, 1⟩, .fin ⟨1, 1⟩⟩ ⟨.fin ⟨1, 1⟩, .fin ⟨0, 1⟩, .fin ⟨1, 1⟩⟩
        ⟨.fin ⟨0, 1⟩, .fin ⟨1, 1⟩, .fin ⟨1, 1⟩⟩ .FilledRandom (.fin ⟨1, 1⟩) 0).map
      (fun s => (colorAt s.1 1 0, colorAt s.1 0 1)) = some (⟨1, 0, 0⟩, ⟨2, 0, 0⟩) ∧
    (⟨1, 0, 0⟩ : Color) ≠ ⟨2, 0, 0⟩ := by
  decide

/-- C8 (amended): in the `FilledRandom` style the color is drawn fresh from
the random source on every call of `determine_color` — that is, once per
pixel that passes the depth test, not once per triangle — scaled by the
intensity, and the random cursor advances by one. -/
theorem determine_color_random_per_pixel (rng : ℕ → Color) (rix : ℕ)
    (bary : FP × FP × FP) (intensity : FP) :
    determine_color rng rix bary .FilledRandom intensity
      = some ((rng rix).scale intensity, rix + 1) := rfl

theorem fpDiv_zero_not_fin (x : FP) (f : Frac) (hf : f.num = 0) (g : Frac) :
    fpDiv x (.fin f) ≠ .fin g := by
  cases x with
  | nan => simp [fpDiv]
  | pinf => simp only [fpDiv]; split <;> simp
  | ninf => simp only [fpDiv]; split <;> simp
  | fin a =>
    rw [show fpDiv (.fin a) (.fin f)
        = if f.num = 0 then
            (if a.num = 0 then .nan else if 0 < a.num then .pinf else .ninf)
          else .fin (a.div f) from rfl, if_pos hf]
    split_ifs <;> simp

theorem insideTest_nonfin (a b : FP) (ha : ∀ g, a ≠ .fin g) (hb : ∀ g, b ≠ .fin g) :
    insideTest (a, b, fpSub (fpSub (.fin ⟨1, 1⟩) a) b) = false := by
  cases a <;> cases b <;>
    first
      | decide
      | exact absurd rfl (ha _)
      | exact absurd rfl (hb _)

theorem pixelStep_degenerate (rng : ℕ → Color) (p1 p2 p3 : Point3f)
    (style : DrawStyle) (intensity : FP) (f : Frac)
    (hbd : bdenom p1 p2 p3 = .fin f) (hf : f.num = 0) (y x : ℕ) (s : Image × ℕ) :
    pixelStep rng p1 p2 p3 style intensity y x s = some s := by
  rw [pixelStep]
  have hfalse :
      insideTest (barycentric p1 p2 p3 ⟨.fin ⟨x, 1⟩, .fin ⟨y, 1⟩, .fin ⟨0, 1⟩⟩) = false := by
    rw [barycentric, hbd]
    exact insideTest_nonfin _ _ (fun g => fpDiv_zero_not_fin _ f hf g)
      (fun g => fpDiv_zero_not_fin _ f hf g)
  rw [hfalse]
  simp

theorem foldlM_option_id {α σ : Type} (f : σ → α → Option σ) (l : List α)
    (h : ∀ s a, f s a = some s) (s : σ) : l.foldlM f s = some s := by
  induction l generalizing s with
  | nil => rfl
  | cons a t ih => simp [List.foldlM_cons, h, ih]

/-- C4: a degenerate triangle — one whose barycentric denominator is exactly
the finite zero, as happens for collinear screen-space vertices — draws
nothing: the barycentric fill leaves the canvas (color grid and depth buffer)
and the random cursor unchanged and does not crash, because the weights
produced by the division by zero (NaN or infinities) fail the combined
`>= -LIMIT` inside test at every pixel. -/
theorem degenerate_triangle_draws_nothing (rng : ℕ → Color) (img : Image)
    (p1 p2 p3 : Point3f) (style : DrawStyle) (intensity : FP) (rix : ℕ)
    (hd : (bdenom p1 p2 p3).isZero = true) :
    triangle_barycentric rng img p1 p2 p3 style intensity rix = some (img, rix) ∧
    ∀ x y : ℕ,
      insideTest (barycentric p1 p2 p3 ⟨.fin ⟨x, 1⟩, .fin ⟨y, 1⟩, .fin ⟨0, 1⟩⟩) = false := by
  obtain ⟨f, hbd, hf⟩ : ∃ f, bdenom p1 p2 p3 = .fin f ∧ f.num = 0 := by
    cases hb : bdenom p1 p2 p3 <;> rw [hb] at hd <;> simp [FP.isZero] at hd
    exact ⟨_, rfl, hd⟩
  constructor
  · rw [triangle_barycentric]
    exact foldlM_option_id _ _
      (fun s y => foldlM_option_id _ _
        (fun s x => pixelStep_degenerate rng p1 p2 p3 style intensity f hbd hf y x s) s) _
  · intro x y
    rw [barycentric, hbd]
    exact insideTest_nonfin _ _ (fun g => fpDiv_zero_not_fin _ f hf g)
      (fun g => fpDiv_zero_not_fin _ f hf g)

/-- Witness for C4 on the collinear triangle `(0,0), (1,1), (2,2)` over a
2-by-2 canvas. -/
theorem degenerate_triangle_draws_nothing_instance :
    (bdenom ⟨.fin ⟨0, 1⟩, .fin ⟨0, 1⟩, .fin ⟨0, 1⟩⟩ ⟨.fin ⟨1, 1⟩, .fin ⟨1, 1⟩, .fin ⟨0, 1⟩⟩
        ⟨.fin ⟨2, 1⟩, .fin ⟨2, 1⟩, .fin ⟨0, 1⟩⟩).isZero = true ∧
    (triangle_barycentric (fun _ => ⟨0, 0, 0⟩) (Image.new 2 2)
        ⟨.fin ⟨0, 1⟩, .fin ⟨0, 1⟩, .fin ⟨0, 1⟩⟩ ⟨.fin ⟨1, 1⟩, .fin ⟨1, 1⟩, .fin ⟨0, 1⟩⟩
        ⟨.fin ⟨2, 1⟩, .fin ⟨2, 1⟩, .fin ⟨0, 1⟩⟩ (.Filled ⟨255, 255, 255⟩) (.fin ⟨1, 1⟩) 0
      = some (Image.new 2 2, 0) ∧
    ∀ x y : ℕ,
      insideTest (barycentric ⟨.fin ⟨0, 1⟩, .fin ⟨0, 1⟩, .fin ⟨0, 1⟩⟩
        ⟨.fin ⟨1, 1⟩, .fin ⟨1, 1⟩, .fin ⟨0, 1⟩⟩ ⟨.fin ⟨2, 1⟩, .fin ⟨2, 1⟩, .fin ⟨0, 1⟩⟩
        ⟨.fin ⟨x, 1⟩, .fin ⟨y, 1⟩, .fin ⟨0, 1⟩⟩) = false) :=
  ⟨by decide, degenerate_triangle_draws_nothing (fun _ => ⟨0, 0, 0⟩) (Image.new 2 2)
    ⟨.fin ⟨0, 1⟩, .fin ⟨0, 1⟩, .fin ⟨0, 1⟩⟩ ⟨.fin ⟨1, 1⟩, .fin ⟨1, 1⟩, .fin ⟨0, 1⟩⟩
    ⟨.fin ⟨2, 1⟩, .fin ⟨2, 1⟩, .fin ⟨0, 1⟩⟩ (.Filled ⟨255, 255, 255⟩) (.fin ⟨1, 1⟩) 0
    (by decide)⟩

theorem flatIdx_inj {w a b c d : ℕ} (ha : a < w) (hc : c < w)
    (h : b * w + a = d * w + c) : a = c ∧ b = d := by
  have e1 : (b * w + a) % w = a := by
    rw [Nat.add_comm, Nat.add_mul_mod_self_right, Nat.mod_eq_of_lt ha]
  have e2 : (d * w + c) % w = c := by
    rw [Nat.add_comm, Nat.add_mul_mod_self_right, Nat.mod_eq_of_lt hc]
  have hac : a = c := by rw [← e1, ← e2, h]
  refine ⟨hac, ?_⟩
  have hbw : b * w = d * w := by omega
  exact Nat.eq_of_mul_eq_mul_right (by omega) hbw

theorem flatIdx_lt {w a b : ℕ} (ha : a < w) (hb : b < w) : b * w + a < w * w := by
  calc b * w + a < b * w + w := by omega
    _ = (b + 1) * w := by ring
    _ ≤ w * w := Nat.mul_le_mul_right w (by omega)

theorem runCalls_zbuf_inv (w x y : ℕ) (hx : x < w) (hy : y < w)
    (calls : List (ℕ × ℕ × FP)) :
    ∀ img : Image, img.height = w → img.z_buffer.length = w * w →
      (∀ c ∈ calls, c.1 < w ∧ c.2.1 < w) →
      ∃ img2, runCalls img calls = some img2 ∧ img2.height = w ∧
        img2.z_buffer.length = w * w ∧
        zAt img2 x y = List.foldl fpMaxAcc (zAt img x y) (acceptedAt img x y calls) := by
  induction calls with
  | nil =>
    intro img h2 h3 _
    exact ⟨img, rfl, h2, h3, rfl⟩
  | cons c rest ih =>
    intro img h2 h3 hin
    obtain ⟨hc1, hc2⟩ := hin c (List.mem_cons_self c rest)
    have hidx : c.2.1 * img.height + c.1 < img.z_buffer.length := by
      rw [h2, h3]
      exact flatIdx_lt hc1 hc2
    have hget : img.z_buffer[c.2.1 * img.height + c.1]? = some (zAt img c.1 c.2.1) :=
      getElem?_eq_some_getD _ _ _ hidx
    have hinrest : ∀ d ∈ rest, d.1 < w ∧ d.2.1 < w := fun d hd => hin d (List.mem_cons_of_mem c hd)
    cases hlt : fpLt (zAt img c.1 c.2.1) c.2.2 with
    | true =>
      have hcheck : img.check_and_set_zbuf c.1 c.2.1 c.2.2 =
          some ({ img with
            z_buffer := img.z_buffer.set (c.2.1 * img.height + c.1) c.2.2 }, true) := by
        simp [Image.check_and_set_zbuf, hget, hlt]
      obtain ⟨img2, hrun, hh2, hlen2, hz2⟩ :=
        ih { img with z_buffer := img.z_buffer.set (c.2.1 * img.height + c.1) c.2.2 }
          h2 (by simp [List.length_set, h3]) hinrest
      refine ⟨img2, ?_, hh2, hlen2, ?_⟩
      · rw [runCalls, hcheck]
        exact hrun
      · rw [acceptedAt, hcheck]
        simp only
        by_cases hxy : c.1 = x ∧ c.2.1 = y
        · obtain ⟨hxe, hye⟩ := hxy
          subst hxe; subst hye
          rw [if_pos (by exact ⟨trivial, rfl, rfl⟩)]
          rw [List.singleton_append, List.foldl_cons]
          rw [hz2]
          congr 1
          · rw [fpMaxAcc, if_pos hlt]
            rw [zAt]
            simp only
            rw [h2] at hidx ⊢
            exact getD_set_self _ _ _ _ hidx
        · rw [if_neg (by simpa using fun h1 h2 => hxy ⟨h1, h2⟩)]
          rw [List.nil_append, hz2]
          congr 1
          rw [zAt, zAt]
          simp only
          rw [h2]
          apply getD_set_ne
          intro heq
          exact hxy ⟨(flatIdx_inj hc1 hx heq).1, (flatIdx_inj hc1 hx heq).2⟩
    | false =>
      have hcheck : img.check_and_set_zbuf c.1 c.2.1 c.2.2 = some (img, false) := by
        simp [Image.check_and_set_zbuf, hget, hlt]
      obtain ⟨img2, hrun, hh2, hlen2, hz2⟩ := ih img h2 h3 hinrest
      refine ⟨img2, ?_, hh2, hlen2, ?_⟩
      · rw [runCalls, hcheck]
        exact hrun
      · rw [acceptedAt, hcheck]
        simp only [false_and, if_false, List.nil_append]
        exact hz2

/-- C3 counterexample: on the non-square canvas `Image::new(3, 2)` the
accepted depth write at the in-bounds pixel `(x, y) = (0, 1)` (the call
returns `true`) lands at the flat index used by the code, `y * height + x = 2`, while
the claimed index `y * width + x = 3` still holds the initial negative
infinity — so the stored depth at `y * width + x` does not equal the largest
accepted depth at that pixel. -/
theorem zbuf_index_formula_cex :
    ((Image.new 3 2).check_and_set_zbuf 0 1 (.fin ⟨5, 1⟩)).map
        (fun r => (r.2, r.1.z_buffer.getD (1 * (Image.new 3 2).width + 0) .nan,
                   r.1.z_buffer.getD (1 * (Image.new 3 2).height + 0) .nan))
      = some (true, .ninf, .fin ⟨5, 1⟩) ∧
    (FP.ninf ≠ FP.fin ⟨5, 1⟩) := by
  decide

/-- C3 (amended): the canvas keeps its depth grid as one flat array whose
cell for pixel `(x, y)` sits at index `y * height + x` (which coincides with
the claimed `y * width + x` exactly on the square canvases the program
constructs), every entry starts at negative infinity, and across any sequence
of in-bounds depth-test calls on a square canvas the stored depth at a pixel
is the running maximum of the depths accepted there (negative infinity while
none was accepted). -/
theorem zbuf_flat_invariant (w : ℕ) (calls : List (ℕ × ℕ × FP)) (x y : ℕ)
    (hx : x < w) (hy : y < w) (hcalls : ∀ c ∈ calls, c.1 < w ∧ c.2.1 < w) :
    (∀ i, i < w * w → (Image.new w w).z_buffer.getD i .nan = .ninf) ∧
    ∃ img2, runCalls (Image.new w w) calls = some img2 ∧
      zAt img2 x y =
        List.foldl fpMaxAcc .ninf (acceptedAt (Image.new w w) x y calls) := by
  constructor
  · intro i hi
    exact getD_replicate _ _ _ _ hi
  · have hstart : zAt (Image.new w w) x y = .ninf := by
      rw [zAt]
      exact getD_replicate _ _ _ _ (flatIdx_lt hx hy)
    obtain ⟨img2, hrun, _, _, hz⟩ :=
      runCalls_zbuf_inv w x y hx hy calls (Image.new w w) rfl
        (by simp [Image.new]) hcalls
    exact ⟨img2, hrun, by rw [hz, hstart]⟩

/-- Witness for the amended statement of C3: a 2-by-2 canvas, two calls at pixel
`(0, 0)` (the second rejected) and one at `(1, 1)`. -/
theorem zbuf_flat_invariant_instance :
    ((0 : ℕ) < 2) ∧ ((0 : ℕ) < 2) ∧
    (∀ c ∈ [((0 : ℕ), (0 : ℕ), FP.fin ⟨1, 1⟩), (0, 0, .fin ⟨0, 1⟩), (1, 1, .fin ⟨2, 1⟩)],
      c.1 < 2 ∧ c.2.1 < 2) ∧
    ((∀ i, i < 2 * 2 → (Image.new 2 2).z_buffer.getD i .nan = .ninf) ∧
    ∃ img2, runCalls (Image.new 2 2)
        [((0 : ℕ), (0 : ℕ), FP.fin ⟨1, 1⟩), (0, 0, .fin ⟨0, 1⟩), (1, 1, .fin ⟨2, 1⟩)]
        = some img2 ∧
      zAt img2 0 0 =
        List.foldl fpMaxAcc .ninf (acceptedAt (Image.new 2 2) 0 0
          [((0 : ℕ), (0 : ℕ), FP.fin ⟨1, 1⟩), (0, 0, .fin ⟨0, 1⟩), (1, 1, .fin ⟨2, 1⟩)])) :=
  ⟨by decide, by decide, by decide,
    zbuf_flat_invariant 2
      [((0 : ℕ), (0 : ℕ), FP.fin ⟨1, 1⟩), (0, 0, .fin ⟨0, 1⟩), (1, 1, .fin ⟨2, 1⟩)]
      0 0 (by decide) (by decide) (by decide)⟩


theorem lineLoop_length (steep : Bool) (derror2 dx dystep : ℤ) :
    ∀ (n x : ℕ) (e y : ℤ), (lineLoop steep derror2 dx dystep n x e y).length = n := by
  intro n
  induction n with
  | zero => intro x e y; rfl
  | succ n ih =>
    intro x e y
    rw [lineLoop]
    simp only [List.length_cons]
    split <;> simp [ih]

theorem range_map_shift (n x : ℕ) :
    (List.range (n + 1)).map (x + ·) = x :: (List.range n).map ((x + 1) + ·) := by
  rw [List.range_succ_eq_map, List.map_cons, List.map_map]
  have hfun : ((x + ·) ∘ Nat.succ) = ((x + 1) + ·) := by
    funext i
    simp only [Function.comp_apply]
    omega
  rw [hfun, Nat.add_zero]

theorem lineLoop_snd (derror2 dx dystep : ℤ) :
    ∀ (n x : ℕ) (e y : ℤ),
      (lineLoop true derror2 dx dystep n x e y).map (fun p => p.2)
        = (List.range n).map (x + ·) := by
  intro n
  induction n with
  | zero => intro x e y; rfl
  | succ n ih =>
    intro x e y
    rw [lineLoop, range_map_shift, if_pos rfl, List.map_cons]
    split <;> simp [ih]

theorem lineLoop_fst (derror2 dx dystep : ℤ) :
    ∀ (n x : ℕ) (e y : ℤ),
      (lineLoop false derror2 dx dystep n x e y).map (fun p => p.1)
        = (List.range n).map (x + ·) := by
  intro n
  induction n with
  | zero => intro x e y; rfl
  | succ n ih =>
    intro x e y
    rw [lineLoop, range_map_shift, if_neg Bool.false_ne_true, List.map_cons]
    split <;> simp [ih]

theorem lineRun_length (steep : Bool) (x0 y0 x1 y1 : ℕ) :
    (lineRun steep x0 y0 x1 y1).length = x1 - x0 + 1 := by
  rw [lineRun]
  exact lineLoop_length _ _ _ _ _ _ _ _

theorem lineRun_snd (x0 y0 x1 y1 : ℕ) :
    (lineRun true x0 y0 x1 y1).map (fun p => p.2)
      = (List.range (x1 - x0 + 1)).map (x0 + ·) := by
  rw [lineRun]
  exact lineLoop_snd _ _ _ _ _ _ _

theorem lineRun_fst (x0 y0 x1 y1 : ℕ) :
    (lineRun false x0 y0 x1 y1).map (fun p => p.1)
      = (List.range (x1 - x0 + 1)).map (x0 + ·) := by
  rw [lineRun]
  exact lineLoop_fst _ _ _ _ _ _ _

/-- C6: for every pair of endpoints, `Image::line` writes exactly
`max(|x1-x0|, |y1-y0|) + 1` pixels, and the list of major-axis coordinates of
the written pixels (rows for steep lines with `|dy| > |dx|`, columns
otherwise) is exactly the enumeration from the smaller major endpoint to the
larger — every major-axis column/row visited exactly once, in order. -/
theorem line_pixel_count_and_cover (x0 y0 x1 y1 : ℕ) :
    (linePixels x0 y0 x1 y1).length = max (abs_diff x0 x1) (abs_diff y0 y1) + 1 ∧
    majorCoords x0 y0 x1 y1
      = (List.range (max (abs_diff x0 x1) (abs_diff y0 y1) + 1)).map
          ((if abs_diff x0 x1 < abs_diff y0 y1 then min y0 y1 else min x0 x1) + ·) := by
  by_cases hs : abs_diff x0 x1 < abs_diff y0 y1
  · rw [majorCoords, if_pos hs, linePixels, if_pos hs]
    simp only [if_pos hs]
    by_cases hy : y1 < y0
    · rw [if_pos hy, lineRun_length, lineRun_snd]
      have h1 : y0 - y1 + 1 = max (abs_diff x0 x1) (abs_diff y0 y1) + 1 := by
        simp only [abs_diff] at hs ⊢
        split_ifs at hs ⊢ <;> omega
      have h2 : min y0 y1 = y1 := by omega
      rw [h1, h2]
      exact ⟨rfl, rfl⟩
    · rw [if_neg hy, lineRun_length, lineRun_snd]
      have h1 : y1 - y0 + 1 = max (abs_diff x0 x1) (abs_diff y0 y1) + 1 := by
        simp only [abs_diff] at hs ⊢
        split_ifs at hs ⊢ <;> omega
      have h2 : min y0 y1 = y0 := by omega
      rw [h1, h2]
      exact ⟨rfl, rfl⟩
  · rw [majorCoords, if_neg hs, linePixels, if_neg hs]
    simp only [if_neg hs]
    by_cases hx : x1 < x0
    · rw [if_pos hx, lineRun_length, lineRun_fst]
      have h1 : x0 - x1 + 1 = max (abs_diff x0 x1) (abs_diff y0 y1) + 1 := by
        simp only [abs_diff] at hs ⊢
        split_ifs at hs ⊢ <;> omega
      have h2 : min x0 x1 = x1 := by omega
      rw [h1, h2]
      exact ⟨rfl, rfl⟩
    · rw [if_neg hx, lineRun_length, lineRun_fst]
      have h1 : x1 - x0 + 1 = max (abs_diff x0 x1) (abs_diff y0 y1) + 1 := by
        simp only [abs_diff] at hs ⊢
        split_ifs at hs ⊢ <;> omega
      have h2 : min x0 x1 = x0 := by omega
      rw [h1, h2]
      exact ⟨rfl, rfl⟩

theorem abs_diff_comm (a b : ℕ) : abs_diff a b = abs_diff b a := by
  rw [abs_diff, abs_diff]
  split_ifs <;> omega

theorem linePixels_swap (x0 y0 x1 y1 : ℕ) :
    linePixels x0 y0 x1 y1 = linePixels x1 y1 x0 y0 := by
  rw [linePixels, linePixels, abs_diff_comm x1 x0, abs_diff_comm y1 y0]
  by_cases hs : abs_diff x0 x1 < abs_diff y0 y1
  · rw [if_pos hs, if_pos hs]
    rcases lt_trichotomy y0 y1 with h | h | h
    · rw [if_neg (by omega), if_pos h]
    · exfalso
      subst h
      simp only [abs_diff] at hs
      split_ifs at hs <;> omega
    · rw [if_pos h, if_neg (by omega)]
  · rw [if_neg hs, if_neg hs]
    rcases lt_trichotomy x0 x1 with h | h | h
    · rw [if_neg (by omega), if_pos h]
    · have hy : y0 = y1 := by
        subst h
        simp only [abs_diff] at hs
        split_ifs at hs <;> omega
      subst h
      subst hy
      rw [if_neg (by omega)]
    · rw [if_pos h, if_neg (by omega)]

/-- C7: drawing the line from `(x0, y0)` to `(x1, y1)` and from `(x1, y1)`
to `(x0, y0)` writes the identical set of pixel positions (the implementation
normalizes both calls to the same low-to-high major-axis sweep, so even the
traces coincide). -/
theorem line_symmetric (x0 y0 x1 y1 : ℕ) (p : ℕ × ℕ) :
    p ∈ linePixels x0 y0 x1 y1 ↔ p ∈ linePixels x1 y1 x0 y0 := by
  rw [linePixels_swap]

/-- C10: the `Textured` per-pixel sampling of `determine_color` is only safe
for interpolated texture coordinates strictly below `1.0`: whenever a
coordinate is `1.0` or more (infinity included), the computed `as u32` sample
index reaches or exceeds the texture dimension, so `get_pixel` is
out-of-bounds and panics; a negative or NaN coordinate instead clamps to
index `0` and (bounds permitting) silently samples texel column/row `0`. -/
theorem textured_lookup_safety (tex : Texture) (u v : FP) (x y : ℕ)
    (hu : u.wf = true) (hv : v.wf = true)
    (hw : tex.width ≤ 4294967295) (hh : tex.height ≤ 4294967295) :
    (fpLe (.fin ⟨1, 1⟩) u = true →
      tex.width ≤ textureSampleIndex u tex.width ∧
      tex.get_pixel (textureSampleIndex u tex.width) y = none) ∧
    (fpLe (.fin ⟨1, 1⟩) v = true →
      tex.height ≤ textureSampleIndex v tex.height ∧
      tex.get_pixel x (textureSampleIndex v tex.height) = none) ∧
    (∀ f : Frac, u = .fin f → f.num < 0 → textureSampleIndex u tex.width = 0) ∧
    (u = .nan → textureSampleIndex u tex.width = 0) ∧
    (0 < tex.width → y < tex.height → textureSampleIndex u tex.width = 0 →
      tex.get_pixel (textureSampleIndex u tex.width) y = some (tex.pix 0 y)) := by
  have key : ∀ (c : FP), c.wf = true → ∀ (dim : ℕ), dim ≤ 4294967295 →
      fpLe (.fin ⟨1, 1⟩) c = true → dim ≤ textureSampleIndex c dim := by
    intro c hcwf dim hdim hle
    cases c with
    | nan => simp [fpLe] at hle
    | ninf => simp [fpLe] at hle
    | pinf =>
      rcases Nat.eq_zero_or_pos dim with hz | hz
      · omega
      · rw [textureSampleIndex,
          show fpMul .pinf (.fin ⟨(dim : ℤ), 1⟩)
            = if (dim : ℤ) = 0 then .nan else if 0 < (dim : ℤ) then .pinf else .ninf
            from rfl,
          if_neg (by exact_mod_cast hz.ne'), if_pos (by exact_mod_cast hz)]
        exact hdim
    | fin f =>
      have hden : 0 < f.den := by
        simpa [FP.wf] using hcwf
      have hfle : (1 : ℤ) * f.den ≤ f.num * 1 := by
        simpa [fpLe] using hle
      have hnum : (f.den : ℤ) ≤ f.num := by omega
      rw [textureSampleIndex,
        show fpMul (.fin f) (.fin ⟨(dim : ℤ), 1⟩) = .fin (f.mul ⟨(dim : ℤ), 1⟩) from rfl]
      rw [Frac.mul]
      rw [castU32]
      simp only [Nat.mul_one]
      have hprod : ¬ (f.num * (dim : ℤ) < 0) := by
        push_neg
        exact mul_nonneg (by omega) (Int.natCast_nonneg dim)
      rw [if_neg hprod]
      have hediv : (dim : ℤ) ≤ (f.num * (dim : ℤ)) / ((f.den : ℕ) : ℤ) := by
        rw [Int.le_ediv_iff_mul_le (by exact_mod_cast hden)]
        nlinarith [Int.natCast_nonneg dim]
      refine le_min ?_ hdim
      exact (Int.le_toNat (le_trans (Int.natCast_nonneg dim) hediv)).mpr hediv
  have key0 : ∀ f : Frac, f.num < 0 → textureSampleIndex (.fin f) tex.width = 0 := by
    intro f hf
    rw [textureSampleIndex,
      show fpMul (.fin f) (.fin ⟨(tex.width : ℤ), 1⟩) = .fin (f.mul ⟨(tex.width : ℤ), 1⟩)
        from rfl, Frac.mul, castU32]
    simp only
    rcases Nat.eq_zero_or_pos tex.width with hz | hz
    · rw [hz]
      simp only [Nat.cast_zero, mul_zero]
      rw [show Int.ediv 0 ((f.den * 1 : ℕ) : ℤ) = 0 from Int.zero_ediv _]
      simp
    · rw [if_pos (mul_neg_of_neg_of_pos hf (by exact_mod_cast hz))]
  refine ⟨?_, ?_, ?_, ?_, ?_⟩
  · intro hle
    have h1 := key u hu tex.width hw hle
    exact ⟨h1, by simp [Texture.get_pixel, Nat.not_lt.mpr h1]⟩
  · intro hle
    have h1 := key v hv tex.height hh hle
    exact ⟨h1, by simp [Texture.get_pixel, Nat.not_lt.mpr h1]⟩
  · intro f hfu hf
    rw [hfu]
    exact key0 f hf
  · intro hnan
    rw [hnan]
    rfl
  · intro hwpos hy hidx
    rw [hidx]
    simp [Texture.get_pixel, hwpos, hy]

/-- Witness for C10 on a concrete 2-by-2 texture with coordinates `3/2`
(panicking lookup) and `-1/2` (clamped to 0). -/
theorem textured_lookup_safety_instance :
    FP.wf (.fin ⟨3, 2⟩) = true ∧ FP.wf (.fin ⟨-1, 2⟩) = true ∧
    (⟨2, 2, fun _ _ => ⟨7, 7, 7⟩⟩ : Texture).width ≤ 4294967295 ∧
    (⟨2, 2, fun _ _ => ⟨7, 7, 7⟩⟩ : Texture).height ≤ 4294967295 ∧
    ((fpLe (.fin ⟨1, 1⟩) (.fin ⟨3, 2⟩) = true →
      (⟨2, 2, fun _ _ => ⟨7, 7, 7⟩⟩ : Texture).width
          ≤ textureSampleIndex (.fin ⟨3, 2⟩) (⟨2, 2, fun _ _ => ⟨7, 7, 7⟩⟩ : Texture).width ∧
      (⟨2, 2, fun _ _ => ⟨7, 7, 7⟩⟩ : Texture).get_pixel
          (textureSampleIndex (.fin ⟨3, 2⟩) (⟨2, 2, fun _ _ => ⟨7, 7, 7⟩⟩ : Texture).width) 0
        = none) ∧
    (fpLe (.fin ⟨1, 1⟩) (.fin ⟨-1, 2⟩) = true →
      (⟨2, 2, fun _ _ => ⟨7, 7, 7⟩⟩ : Texture).height
          ≤ textureSampleIndex (.fin ⟨-1, 2⟩) (⟨2, 2, fun _ _ => ⟨7, 7, 7⟩⟩ : Texture).height ∧
      (⟨2, 2, fun _ _ => ⟨7, 7, 7⟩⟩ : Texture).get_pixel 0
          (textureSampleIndex (.fin ⟨-1, 2⟩) (⟨2, 2, fun _ _ => ⟨7, 7, 7⟩⟩ : Texture).height)
        = none) ∧
    (∀ f : Frac, FP.fin ⟨3, 2⟩ = .fin f → f.num < 0 →
      textureSampleIndex (.fin ⟨3, 2⟩) (⟨2, 2, fun _ _ => ⟨7, 7, 7⟩⟩ : Texture).width = 0) ∧
    (FP.fin ⟨3, 2⟩ = .nan →
      textureSampleIndex (.fin ⟨3, 2⟩) (⟨2, 2, fun _ _ => ⟨7, 7, 7⟩⟩ : Texture).width = 0) ∧
    (0 < (⟨2, 2, fun _ _ => ⟨7, 7, 7⟩⟩ : Texture).width →
      0 < (⟨2, 2, fun _ _ => ⟨7, 7, 7⟩⟩ : Texture).height →
      textureSampleIndex (.fin ⟨3, 2⟩) (⟨2, 2, fun _ _ => ⟨7, 7, 7⟩⟩ : Texture).width = 0 →
      (⟨2, 2, fun _ _ => ⟨7, 7, 7⟩⟩ : Texture).get_pixel
          (textureSampleIndex (.fin ⟨3, 2⟩) (⟨2, 2, fun _ _ => ⟨7, 7, 7⟩⟩ : Texture).width) 0
        = some ((⟨2, 2, fun _ _ => ⟨7, 7, 7⟩⟩ : Texture).pix 0 0))) :=
  ⟨by decide, by decide, by decide, by decide,
    textured_lookup_safety ⟨2, 2, fun _ _ => ⟨7, 7, 7⟩⟩ (.fin ⟨3, 2⟩) (.fin ⟨-1, 2⟩) 0 0
      (by decide) (by decide) (by decide) (by decide)⟩
